import Mathlib

/-!
Verification development for the saga tensor/graph core.

The definitions below are a shallow embedding of the C++ sources
(`saga.h`, `src/tensor.cpp`, `src/node.cpp`, `src/graph.cpp`,
`src/cuda/cuda_tensor.cpp`).  Element values travelling through the
`get`/`set` interchange (a C++ `double`) are modelled by `Int`; the
per-data-type load/store conversions (`get_float`/`set_float`, ...) are
modelled as the identity on that domain, since the properties verified
here concern addressing, aliasing and bookkeeping rather than rounding.
-/

namespace Saga

/-- Scalar data types of `Tensor::DataType` (saga.h) together with `I32`,
which `src/tensor.cpp` additionally handles. -/
inductive DataType
  | U8
  | HALF
  | FLOAT
  | INT64
  | I32
deriving DecidableEq

/-- Dimension / coordinate / stride vectors: `typedef std::vector<int64_t> Dims`. -/
abbrev Dims := List Int

/-- Element count of a dimension list (`elements_from_dims`, tensor.cpp):
starts from 1 and multiplies every dimension in order. -/
def elementsFromDims (dims : Dims) : Int :=
  dims.foldl (· * ·) 1

/-- Attribute variant `std::variant<float, int, std::vector<int>, bool>`
(saga.h).  The `float` payload is modelled as an opaque numeric value:
no verified property computes with float attributes. -/
inductive Attribute
  | afloat (v : Int)
  | aint (v : Int)
  | aints (v : List Int)
  | abool (v : Bool)
deriving DecidableEq

/-- Attribute bag: `class Attributes : public std::unordered_map<std::string, Attribute>`.
Modelled as an association list with at most one binding per key observable
through `lookup` (the first one). -/
abbrev Attributes := List (String × Attribute)

/-- The `T = int` instantiation of `Attributes::get` (saga.h): missing key or
wrong stored variant returns the caller-supplied default. -/
def Attributes.getInt (m : Attributes) (n : String) (dflt : Int) : Int :=
  match m.lookup n with
  | some (.aint v) => v
  | _ => dflt

/-- The `T = float` instantiation of `Attributes::get`. -/
def Attributes.getFloat (m : Attributes) (n : String) (dflt : Int) : Int :=
  match m.lookup n with
  | some (.afloat v) => v
  | _ => dflt

/-- The `T = std::vector<int>` instantiation of `Attributes::get`. -/
def Attributes.getInts (m : Attributes) (n : String) (dflt : List Int) : List Int :=
  match m.lookup n with
  | some (.aints v) => v
  | _ => dflt

/-- The `T = bool` instantiation of `Attributes::get`. -/
def Attributes.getBool (m : Attributes) (n : String) (dflt : Bool) : Bool :=
  match m.lookup n with
  | some (.abool v) => v
  | _ => dflt

/-- Data shared by every `Tensor` (saga.h): optional name, data type,
dimension list. -/
structure TensorBase where
  name : Option String
  data_type : DataType
  dims : Dims
deriving DecidableEq

/-- The world of storages: contents of every `TensorStorage`, addressed by a
storage identity (modelling the allocation address) and a flat element
offset. -/
abbrev Store := Nat → Int → Int

/-- Write one element of one storage. -/
def storeWrite (σ : Store) (id : Nat) (i : Int) (v : Int) : Store :=
  fun id' i' => if id' = id ∧ i' = i then v else σ id' i'

/-- A `CPUTensor` (tensor.cpp): dims plus strides, a backing `HostTensorStorage`
(identified by `storage`) and a base element offset into it. -/
structure CPUTensor where
  name : Option String
  data_type : DataType
  dims : Dims
  strides : Dims
  storage : Nat
  offset : Int
deriving DecidableEq

/-- Model of `CPUTensorAccess::offsetForElement` (tensor.cpp): base offset plus
`element[i] * strides_[i]` summed while both vectors have an entry
(`i < element.size() && i < strides_.size()`). -/
def offsetForElement (offset : Int) (strides : Dims) (element : Dims) : Int :=
  offset + (List.zipWith (· * ·) element strides).sum

/-- Model of `CPUTensorAccess::get`: read the storage at the computed flat offset. -/
def CPUTensor.getAt (t : CPUTensor) (σ : Store) (element : Dims) : Int :=
  σ t.storage (offsetForElement t.offset t.strides element)

/-- Model of `CPUTensorAccess::set`: write the storage at the computed flat offset. -/
def CPUTensor.setAt (t : CPUTensor) (σ : Store) (element : Dims) (v : Int) : Store :=
  storeWrite σ t.storage (offsetForElement t.offset t.strides element) v

/-- Helper for `computeCPUStrides`: returns the stride vector together with
the running stride (which after consuming a suffix equals that suffix's
element product). -/
def stridesAux : Dims → Dims × Int
  | [] => ([], 1)
  | d :: ds =>
    let p := stridesAux ds
    (p.2 :: p.1, p.2 * d)

/-- Model of `computeCPUStrides` (tensor.cpp): canonical packed C-order strides, built
from the last axis (stride 1) towards the first. -/
def computeCPUStrides (dims : Dims) : Dims :=
  (stridesAux dims).1

/-- Model of `CPUTensor::slice` (tensor.cpp): same storage, caller-supplied size,
inherited strides, base offset advanced by `offset[i] * strides_[i]`
summed while both vectors have an entry. -/
def CPUTensor.slice (t : CPUTensor) (offset sz : Dims) : CPUTensor :=
  { name := t.name.map (fun s => s ++ ".slice")
    data_type := t.data_type
    dims := sz
    strides := t.strides
    storage := t.storage
    offset := t.offset + (List.zipWith (· * ·) offset t.strides).sum }

/-- A coordinate is in bounds for a dimension list when it has the same rank
and every component lies in `[0, dim)`. -/
def inBounds (dims coord : Dims) : Prop :=
  coord.length = dims.length ∧ ∀ p ∈ List.zip coord dims, 0 ≤ p.1 ∧ p.1 < p.2

instance (dims coord : Dims) : Decidable (inBounds dims coord) := by
  unfold inBounds; infer_instance

/-- Distributing a dot product over a componentwise sum of equally long
coordinate vectors. -/
theorem sum_zipWith_mul_add (a b s : List Int) (h : a.length = b.length) :
    (List.zipWith (· * ·) (List.zipWith (· + ·) a b) s).sum
      = (List.zipWith (· * ·) a s).sum + (List.zipWith (· * ·) b s).sum := by
  induction a generalizing b s with
  | nil =>
    cases b with
    | nil => simp
    | cons y ys => simp at h
  | cons x xs ih =>
    cases b with
    | nil => simp at h
    | cons y ys =>
      cases s with
      | nil => simp
      | cons z zs =>
        simp only [List.zipWith_cons_cons, List.sum_cons]
        rw [ih ys zs (by simpa using h)]
        ring

/-- C6: `Attributes::get` (saga.h) returns the stored value when the key is
present with the requested variant type, and returns exactly the
caller-supplied default both when the key is absent and when the stored
variant holds a different type; the lookup is a `const` member and the
model is a pure function of the bag, so the bag is never modified. -/
theorem attributes_get_default_policy (bag : Attributes) (k : String)
    (dF dI : Int) (dV : List Int) (dB : Bool) :
    (bag.lookup k = none →
      bag.getFloat k dF = dF ∧ bag.getInt k dI = dI ∧
      bag.getInts k dV = dV ∧ bag.getBool k dB = dB) ∧
    (∀ v, bag.lookup k = some (.aint v) →
      bag.getInt k dI = v ∧ bag.getFloat k dF = dF ∧
      bag.getInts k dV = dV ∧ bag.getBool k dB = dB) ∧
    (∀ v, bag.lookup k = some (.afloat v) →
      bag.getFloat k dF = v ∧ bag.getInt k dI = dI ∧
      bag.getInts k dV = dV ∧ bag.getBool k dB = dB) ∧
    (∀ v, bag.lookup k = some (.aints v) →
      bag.getInts k dV = v ∧ bag.getInt k dI = dI ∧
      bag.getFloat k dF = dF ∧ bag.getBool k dB = dB) ∧
    (∀ v, bag.lookup k = some (.abool v) →
      bag.getBool k dB = v ∧ bag.getInt k dI = dI ∧
      bag.getFloat k dF = dF ∧ bag.getInts k dV = dV) := by
  unfold Attributes.getInt Attributes.getFloat Attributes.getInts Attributes.getBool
  refine ⟨fun h => ?_, fun v h => ?_, fun v h => ?_, fun v h => ?_, fun v h => ?_⟩ <;>
    simp [h]

/-- Witness for C6: concrete lookups exercising present-and-matching,
present-but-mismatched, and absent keys. -/
theorem attributes_get_default_policy_witness :
    Attributes.getInt [("stride", Attribute.aint 2)] "stride" 1 = 2 ∧
    Attributes.getBool [("stride", Attribute.aint 2)] "stride" true = true ∧
    Attributes.getInt [] "stride" 7 = 7 :=
  ⟨(attributes_get_default_policy [("stride", Attribute.aint 2)] "stride" 0 1 [] true).2.1
      2 (by decide) |>.1,
   (attributes_get_default_policy [("stride", Attribute.aint 2)] "stride" 0 1 [] true).2.1
      2 (by decide) |>.2.2.2,
   (attributes_get_default_policy [] "stride" 0 7 [] true).1 (by decide) |>.2.1⟩

/-- C2: a slice of a CPU tensor shares its parent's storage, inherits its
strides, and sits at base offset `parent offset + Σ offset[i]·stride[i]`;
writing through a view of the slice at an in-bounds coordinate `c` is read
back by the parent at the offset-adjusted coordinate `offset + c`, and a
write through the parent at `offset + c` is read back by the slice at `c`. -/
theorem slice_aliasing (σ : Store) (t : CPUTensor) (off sz c : Dims) (v : Int)
    (hlen : off.length = c.length) (_hb : inBounds sz c) :
    (t.slice off sz).storage = t.storage ∧
    (t.slice off sz).strides = t.strides ∧
    (t.slice off sz).offset = t.offset + (List.zipWith (· * ·) off t.strides).sum ∧
    t.getAt ((t.slice off sz).setAt σ c v) (List.zipWith (· + ·) off c) = v ∧
    (t.slice off sz).getAt (t.setAt σ (List.zipWith (· + ·) off c) v) c = v := by
  have hoff : offsetForElement (t.offset + (List.zipWith (· * ·) off t.strides).sum)
        t.strides c
      = offsetForElement t.offset t.strides (List.zipWith (· + ·) off c) := by
    simp only [offsetForElement]
    rw [sum_zipWith_mul_add off c t.strides hlen]
    ring
  refine ⟨rfl, rfl, rfl, ?_, ?_⟩
  · simp [CPUTensor.getAt, CPUTensor.setAt, CPUTensor.slice, storeWrite, hoff]
  · simp [CPUTensor.getAt, CPUTensor.setAt, CPUTensor.slice, storeWrite, hoff]

/-- A concrete 2×3 CPU tensor with canonical strides used by witnesses. -/
def cpuT23 : CPUTensor :=
  { name := none
    data_type := DataType.FLOAT
    dims := [2, 3]
    strides := [3, 1]
    storage := 0
    offset := 0 }

/-- Witness for C2: a 1×2 slice at offset [1,1] of a 2×3 tensor aliases the
parent at the shifted coordinate. -/
theorem slice_aliasing_witness :
    (cpuT23.slice [1, 1] [1, 2]).storage = cpuT23.storage ∧
    (cpuT23.slice [1, 1] [1, 2]).strides = cpuT23.strides ∧
    (cpuT23.slice [1, 1] [1, 2]).offset
      = cpuT23.offset + (List.zipWith (· * ·) [1, 1] cpuT23.strides).sum ∧
    cpuT23.getAt ((cpuT23.slice [1, 1] [1, 2]).setAt (fun _ _ => 0) [0, 1] 42)
      (List.zipWith (· + ·) [1, 1] [0, 1]) = 42 ∧
    (cpuT23.slice [1, 1] [1, 2]).getAt
      (cpuT23.setAt (fun _ _ => 0) (List.zipWith (· + ·) [1, 1] [0, 1]) 42) [0, 1] = 42 :=
  slice_aliasing (fun _ _ => 0) cpuT23 [1, 1] [1, 2] [0, 1] 42 rfl (by decide)

/-- A tensor handle: either a plain base-class `Tensor` (whose `access()` and
`slice()` return null), a `GenTensor` (generator-backed, tensor.cpp), or a
storage-backed `CPUTensor`. -/
inductive Tensor
  | base (b : TensorBase)
  | gen (b : TensorBase) (mean stddev : Int)
  | cpu (t : CPUTensor)
deriving DecidableEq

/-- Data type of any tensor handle. -/
def Tensor.data_type : Tensor → DataType
  | .base b => b.data_type
  | .gen b _ _ => b.data_type
  | .cpu t => t.data_type

/-- Dimension list of any tensor handle. -/
def Tensor.dims : Tensor → Dims
  | .base b => b.dims
  | .gen b _ _ => b.dims
  | .cpu t => t.dims

/-- Element count (`elements_` member, computed by `elements_from_dims`). -/
def Tensor.elements (t : Tensor) : Int :=
  elementsFromDims t.dims

/-- Modelled from the spec: the pseudo-random sampling path of
`GenTensorAccess::get` delegates to `std::normal_distribution` over a
freshly default-seeded `std::default_random_engine`, library code outside
this repository.  It is modelled as a deterministic stream, a function of
the draw position only, in which consecutive draws always differ
(the spec's fresh-sample-per-call contract). -/
def genSample (mean stddev : Int) (pos : Nat) : Int :=
  mean + (stddev * stddev + 1) * pos

/-- A live `TensorAccess`: either a `CPUTensorAccess` (strides, storage and
base offset fixed at construction) or a `GenTensorAccess` (rank,
distribution parameters, and the position reached in the sample stream;
the engine is default-seeded, so a fresh access starts at position 0). -/
inductive AccessView
  | cpu (t : CPUTensor)
  | gen (rank : Nat) (mean stddev : Int) (pos : Nat)
deriving DecidableEq

/-- Model of `TensorAccess::get`: a CPU access reads its storage at the flat offset and
leaves every state unchanged; `GenTensorAccess::get` ignores the coordinate
and draws the next sample, advancing only its own stream position. -/
def AccessView.get : AccessView → Store → Dims → Int × AccessView
  | .cpu t, σ, e => (t.getAt σ e, .cpu t)
  | .gen r m s p, _, _ => (genSample m s p, .gen r m s (p + 1))

/-- Model of `TensorAccess::set`: a CPU access writes its storage;
`GenTensorAccess::set` has an empty body — no state of any kind changes. -/
def AccessView.set : AccessView → Store → Dims → Int → Store × AccessView
  | .cpu t, σ, e, v => (t.setAt σ e v, .cpu t)
  | .gen r m s p, σ, _, _ => (σ, .gen r m s p)

/-- Write a run of consecutive elements starting at a flat offset (the model
of a raw `memcpy` into storage, in whole elements). -/
def storeWriteRun (σ : Store) (id : Nat) (i : Int) : List Int → Store
  | [] => σ
  | v :: vs => storeWriteRun (storeWrite σ id i v) id (i + 1) vs

/-- Model of `TensorAccess::copyBytesFrom`: a CPU access blits host data into storage
starting at the element's flat offset; `GenTensorAccess::copyBytesFrom`
has an empty body — no state of any kind changes. -/
def AccessView.copyBytesFrom : AccessView → Store → Dims → List Int → Store × AccessView
  | .cpu t, σ, e, data =>
    (storeWriteRun σ t.storage (offsetForElement t.offset t.strides e) data, .cpu t)
  | .gen r m s p, σ, _, _ => (σ, .gen r m s p)

/-- Model of `Tensor::access()`: the base class returns null; `GenTensor::access`
returns a fresh `GenTensorAccess`; `CPUTensor::access` returns a
`CPUTensorAccess` over its storage, strides and offset. -/
def Tensor.access : Tensor → Option AccessView
  | .base _ => none
  | .gen b m s => some (.gen b.dims.length m s 0)
  | .cpu t => some (.cpu t)

/-- Odometer increment, little-endian worklist: the source loop in
`Tensor::copyFrom` (tensor.cpp) walks axes from the last to the first,
incrementing and carrying while the axis overflows its dimension. -/
def odoIncLE : Dims → Dims → Dims
  | d :: ds, c :: cs => if c + 1 = d then 0 :: odoIncLE ds cs else (c + 1) :: cs
  | _, cs => cs

/-- Odometer increment on a coordinate (last axis fastest). -/
def odoInc (dims c : Dims) : Dims :=
  (odoIncLE dims.reverse c.reverse).reverse

/-- The element-copy loop of `Tensor::copyFrom`: `k` remaining iterations,
destination and source access views, current destination and source
odometer coordinates. Each step writes `dst->set(c_d, src->get(c_s))` and
advances both odometers. -/
def copyLoop : Nat → AccessView → AccessView → Store → Dims → Dims → Dims → Dims → Store
  | 0, _, _, σ, _, _, _, _ => σ
  | k + 1, dv, sv, σ, cd, cs, ddims, sdims =>
    let g := sv.get σ cs
    let s := dv.set σ cd g.1
    copyLoop k s.2 g.2 s.1 (odoInc ddims cd) (odoInc sdims cs) ddims sdims

/-- Model of `Tensor::copyFrom(t)` (tensor.cpp), `dst.copyFrom src`: if the source's
`access()` is null the call returns at once with nothing written. Otherwise
the destination access is opened (a null destination access would be
dereferenced inside the loop — modelled as `none`), the element counts are
asserted equal (failure aborts — modelled as `none`), and the odometer
copy loop runs for the destination's element count starting from the
all-zero coordinates. -/
def Tensor.copyFrom (dst src : Tensor) (σ : Store) : Option Store :=
  match src.access with
  | none => some σ
  | some sv =>
    match dst.access with
    | none => none
    | some dv =>
      if src.elements = dst.elements then
        some (copyLoop dst.elements.toNat dv sv σ
          (List.replicate dst.dims.length 0) (List.replicate src.dims.length 0)
          dst.dims src.dims)
      else none

/-- Registry of named tensors (`class Tensors`, saga.h): name to handle.
The `Nat` component models the `shared_ptr` object identity (allocation
address) so that instance equality is expressible. -/
abbrev Registry := List (String × (Nat × Tensor))

/-- Model of `Tensor::find` (tensor.cpp): when named and already registered, assert
type and shape equality (failure aborts — modelled as `none`) and return
the registered instance unchanged; otherwise construct a fresh `GenTensor`
(identity drawn from the allocation counter) and register it if named. -/
def Tensor.find (data_type : DataType) (size : Dims) (mean stddev : Int)
    (reg : Registry) (name : Option String) (fresh : Nat) :
    Option ((Nat × Tensor) × Registry × Nat) :=
  match name with
  | some nm =>
    match reg.lookup nm with
    | some t =>
      if t.2.data_type = data_type ∧ t.2.dims = size then some (t, reg, fresh)
      else none
    | none =>
      let t : Nat × Tensor := (fresh, .gen ⟨some nm, data_type, size⟩ mean stddev)
      some (t, (nm, t) :: reg, fresh + 1)
  | none =>
    some ((fresh, .gen ⟨none, data_type, size⟩ mean stddev), reg, fresh + 1)

/-- C5: a first `find` under a fresh name registers and returns a new tensor;
a second `find` with the same name and matching shape and type returns the
very same instance (same identity), leaves the registry unchanged and
allocates nothing; a second `find` with the same name but a mismatched
shape or type hits the assertion and is fatal (`none`), never a silent
return. -/
theorem find_registry_identity (data_type : DataType) (size : Dims)
    (mean stddev mean' stddev' : Int) (reg : Registry) (nm : String)
    (fresh fresh' : Nat) (hnew : reg.lookup nm = none) :
    (Tensor.find data_type size mean stddev reg (some nm) fresh
      = some ((fresh, .gen ⟨some nm, data_type, size⟩ mean stddev),
              (nm, (fresh, .gen ⟨some nm, data_type, size⟩ mean stddev)) :: reg,
              fresh + 1)) ∧
    (Tensor.find data_type size mean' stddev'
        ((nm, (fresh, .gen ⟨some nm, data_type, size⟩ mean stddev)) :: reg)
        (some nm) fresh'
      = some ((fresh, .gen ⟨some nm, data_type, size⟩ mean stddev),
              (nm, (fresh, .gen ⟨some nm, data_type, size⟩ mean stddev)) :: reg,
              fresh')) ∧
    (∀ data_type' size', data_type' ≠ data_type ∨ size' ≠ size →
      Tensor.find data_type' size' mean' stddev'
          ((nm, (fresh, .gen ⟨some nm, data_type, size⟩ mean stddev)) :: reg)
          (some nm) fresh'
        = none) := by
  refine ⟨?_, ?_, ?_⟩
  · simp [Tensor.find, hnew]
  · simp [Tensor.find, Tensor.data_type, Tensor.dims]
  · intro dt' sz' hne
    have hl : ((nm, (fresh, Tensor.gen ⟨some nm, data_type, size⟩ mean stddev)) :: reg).lookup nm
        = some (fresh, Tensor.gen ⟨some nm, data_type, size⟩ mean stddev) := by
      simp [List.lookup]
    rcases hne with h | h <;>
      simp [Tensor.find, hl, Tensor.data_type, Tensor.dims, Ne.symm h]

/-- Witness for C5: a concrete first registration, matching re-lookup, and
fatal shape mismatch. -/
theorem find_registry_identity_witness :
    (Tensor.find .FLOAT [4, 4] 0 1 [] (some "w") 0
      = some ((0, .gen ⟨some "w", .FLOAT, [4, 4]⟩ 0 1),
              [("w", (0, .gen ⟨some "w", .FLOAT, [4, 4]⟩ 0 1))], 1)) ∧
    (Tensor.find .FLOAT [4, 4] 0 1
        [("w", (0, .gen ⟨some "w", .FLOAT, [4, 4]⟩ 0 1))] (some "w") 1
      = some ((0, .gen ⟨some "w", .FLOAT, [4, 4]⟩ 0 1),
              [("w", (0, .gen ⟨some "w", .FLOAT, [4, 4]⟩ 0 1))], 1)) ∧
    (Tensor.find .FLOAT [4, 5] 0 1
        [("w", (0, .gen ⟨some "w", .FLOAT, [4, 4]⟩ 0 1))] (some "w") 1
      = none) := by
  have h := find_registry_identity .FLOAT [4, 4] 0 1 0 1 [] "w" 0 1 (by decide)
  exact ⟨h.1, h.2.1, h.2.2 .FLOAT [4, 5] (Or.inr (by decide))⟩

/-- C9: `access()` on a generator-backed tensor returns a non-null view;
`get` ignores the coordinate and draws a fresh sample each call, so two
consecutive `get` calls (at the same or any coordinates) return different
values; `set` and `copyBytesFrom` return every piece of state — the store
and the view — unchanged, so no later read anywhere is affected. -/
theorem gen_tensor_access (b : TensorBase) (m s : Int) (σ σ' : Store)
    (c c' e e' : Dims) (v : Int) (r p : Nat) (data : List Int) :
    Tensor.access (.gen b m s) = some (.gen b.dims.length m s 0) ∧
    (AccessView.get (.gen r m s p) σ c).1
      ≠ (AccessView.get ((AccessView.get (.gen r m s p) σ c).2) σ' c').1 ∧
    AccessView.set (.gen r m s p) σ e v = (σ, .gen r m s p) ∧
    AccessView.copyBytesFrom (.gen r m s p) σ e' data = (σ, .gen r m s p) := by
  refine ⟨rfl, ?_, rfl, rfl⟩
  have hpos : (0 : Int) < s * s + 1 := by nlinarith [mul_self_nonneg s]
  simp only [AccessView.get, genSample, ne_eq, add_right_inj]
  intro hc
  push_cast at hc
  have h2 := mul_left_cancel₀ (ne_of_gt hpos) hc
  linarith

/-- C10: copying from a tensor whose `access()` returns null (neither storage
nor generator) returns immediately: no error, and the entire store — hence
every element of the destination — is unchanged. -/
theorem copy_from_dataless_is_noop (dst src : Tensor) (σ : Store)
    (h : src.access = none) :
    Tensor.copyFrom dst src σ = some σ := by
  unfold Tensor.copyFrom
  rw [h]

/-- Witness for C10: copying from a plain base-class tensor into a concrete
CPU tensor leaves the store untouched. -/
theorem copy_from_dataless_is_noop_witness :
    Tensor.copyFrom (.cpu cpuT23) (.base ⟨none, .FLOAT, [2, 3]⟩) (fun _ _ => 0)
      = some (fun _ _ => 0) :=
  copy_from_dataless_is_noop (.cpu cpuT23) (.base ⟨none, .FLOAT, [2, 3]⟩)
    (fun _ _ => 0) rfl

/-- Model of `CudaTensorStorage` (cuda_tensor.cpp): up to two physical buffers, an
active-buffer index (declared `int`, never initialised — hence an
arbitrary `Int` here), and the buffer contents (physical buffer number,
then flat element offset). -/
structure CudaTensorStorage where
  numBuffers : Nat
  index : Int
  buffers : Nat → Int → Int

/-- Buffer selection `(buffer + index_) & (num_buffers_ - 1)`: for the buffer
counts the class supports (1 or 2, powers of two), the two's-complement
AND with `num_buffers_ - 1` is exactly the nonnegative remainder mod
`num_buffers_`, also for negative `buffer + index_`. -/
def CudaTensorStorage.bufSelect (s : CudaTensorStorage) (buffer : Int) : Nat :=
  ((buffer + s.index) % (s.numBuffers : Int)).toNat

/-- Model of `CudaTensorStorage::get(offset, buffer)`: read `data(buffer)` at the
offset. -/
def CudaTensorStorage.get (s : CudaTensorStorage) (offset : Int) (buffer : Int) : Int :=
  s.buffers (s.bufSelect buffer) offset

/-- Model of `CudaTensorStorage::set(offset, value, buffer)`: write `data(buffer)` at
the offset. -/
def CudaTensorStorage.set (s : CudaTensorStorage) (offset : Int) (value : Int)
    (buffer : Int) : CudaTensorStorage :=
  { s with buffers := fun b o =>
      if b = s.bufSelect buffer ∧ o = offset then value else s.buffers b o }

/-- Model of `CudaTensorStorage::flip()`: advance the active index (`index_++`). -/
def CudaTensorStorage.flip (s : CudaTensorStorage) : CudaTensorStorage :=
  { s with index := s.index + 1 }

/-- C3: on a double-buffered storage, a view opened through `access()` after
`flip()` addresses the other physical buffer than one opened before the
flip (views delegate to the storage's current index with buffer-select 0);
the flip rewrites no buffer cell, and everything readable at buffer-select
0 before the flip — in particular a value just written — is readable after
the flip at buffer-select `(index-1)`, i.e. buffer argument `-1`. -/
theorem double_buffer_flip (s : CudaTensorStorage) (h2 : s.numBuffers = 2)
    (off : Int) (v : Int) :
    (((s.set off v 0).flip).bufSelect 0 ≠ (s.set off v 0).bufSelect 0) ∧
    (∀ b o, ((s.set off v 0).flip).buffers b o = (s.set off v 0).buffers b o) ∧
    (((s.set off v 0).flip).get off (-1) = v) ∧
    (∀ o, ((s.set off v 0).flip).get o (-1) = (s.set off v 0).get o 0) := by
  have hsel : ∀ (i : Int), ((0 + (i + 1)) % (2 : Int)).toNat ≠ ((0 + i) % (2 : Int)).toNat := by
    intro i; omega
  have hsame : ∀ (i : Int), ((-1 + (i + 1)) % (2 : Int)).toNat = ((0 + i) % (2 : Int)).toNat := by
    intro i; omega
  refine ⟨?_, fun b o => rfl, ?_, fun o => ?_⟩
  · simp only [CudaTensorStorage.flip, CudaTensorStorage.set, CudaTensorStorage.bufSelect, h2]
    exact hsel s.index
  · simp only [CudaTensorStorage.flip, CudaTensorStorage.set, CudaTensorStorage.get,
      CudaTensorStorage.bufSelect, h2, hsame s.index]
    simp
  · simp only [CudaTensorStorage.flip, CudaTensorStorage.set, CudaTensorStorage.get,
      CudaTensorStorage.bufSelect, h2, hsame s.index]
    simp

/-- A concrete zeroed double-buffered storage used by the C3 witness. -/
def cudaS2 : CudaTensorStorage :=
  { numBuffers := 2, index := 0, buffers := fun _ _ => 0 }

/-- Witness for C3 at a concrete double-buffered storage. -/
theorem double_buffer_flip_witness :
    (((cudaS2.set 3 7 0).flip).bufSelect 0 ≠ (cudaS2.set 3 7 0).bufSelect 0) ∧
    (∀ b o, ((cudaS2.set 3 7 0).flip).buffers b o = (cudaS2.set 3 7 0).buffers b o) ∧
    (((cudaS2.set 3 7 0).flip).get 3 (-1) = 7) ∧
    (∀ o, ((cudaS2.set 3 7 0).flip).get o (-1) = (cudaS2.set 3 7 0).get o 0) :=
  double_buffer_flip cudaS2 rfl 3 7

/-- A `Node`'s tensor bindings as seen by `Graph::inputTensors` and
`Graph::outputTensors` (graph.cpp): role name paired with the tensor's
`shared_ptr` identity (tensors live in `unordered_set<shared_ptr<Tensor>>`,
so the sets compare addresses). -/
structure NodeUse where
  inputs : List (String × Nat)
  outputs : List (String × Nat)

/-- The `Graph` node sequence, as used by the derived tensor sets. -/
structure GraphModel where
  nodes : List NodeUse

/-- Model of `Graph::inputTensors` (graph.cpp): insert every node's input tensors,
then erase every node's output tensors. -/
def GraphModel.inputTensors (g : GraphModel) : Finset Nat :=
  let ins := g.nodes.foldl (fun s n => n.inputs.foldl (fun s p => insert p.2 s) s) ∅
  g.nodes.foldl (fun s n => n.outputs.foldl (fun s p => s.erase p.2) s) ins

/-- Model of `Graph::outputTensors` (graph.cpp): insert every node's output tensors,
then erase every node's input tensors. -/
def GraphModel.outputTensors (g : GraphModel) : Finset Nat :=
  let outs := g.nodes.foldl (fun s n => n.outputs.foldl (fun s p => insert p.2 s) s) ∅
  g.nodes.foldl (fun s n => n.inputs.foldl (fun s p => s.erase p.2) s) outs

/-- Membership after folding insertions of the second components of a pair
list into a finite set. -/
theorem mem_foldl_insert (t : Nat) (l : List (String × Nat)) (s : Finset Nat) :
    t ∈ l.foldl (fun s p => insert p.2 s) s ↔ t ∈ s ∨ ∃ p ∈ l, p.2 = t := by
  induction l generalizing s with
  | nil => simp
  | cons x xs ih =>
    simp only [List.foldl_cons, ih, Finset.mem_insert, List.mem_cons]
    constructor
    · rintro ((h | h) | ⟨p, hp, hpt⟩)
      · exact Or.inr ⟨x, Or.inl rfl, h.symm⟩
      · exact Or.inl h
      · exact Or.inr ⟨p, Or.inr hp, hpt⟩
    · rintro (h | ⟨p, hp | hp, hpt⟩)
      · exact Or.inl (Or.inr h)
      · exact Or.inl (Or.inl (by rw [hp] at hpt; exact hpt.symm))
      · exact Or.inr ⟨p, hp, hpt⟩

/-- Membership after folding erasures of the second components of a pair
list out of a finite set. -/
theorem mem_foldl_erase (t : Nat) (l : List (String × Nat)) (s : Finset Nat) :
    t ∈ l.foldl (fun s p => s.erase p.2) s ↔ t ∈ s ∧ ∀ p ∈ l, p.2 ≠ t := by
  induction l generalizing s with
  | nil => simp
  | cons x xs ih =>
    simp only [List.foldl_cons, ih, Finset.mem_erase, List.mem_cons]
    constructor
    · rintro ⟨⟨hne, hs⟩, hall⟩
      exact ⟨hs, fun p hp => by
        rcases hp with hp | hp
        · rw [hp]; exact fun hc => hne hc.symm
        · exact hall p hp⟩
    · rintro ⟨hs, hall⟩
      exact ⟨⟨fun hc => hall x (Or.inl rfl) hc.symm, hs⟩, fun p hp => hall p (Or.inr hp)⟩

/-- Membership after the nested node/tensor insertion fold. -/
theorem mem_nodes_foldl_insert (t : Nat) (nodes : List NodeUse) (s : Finset Nat)
    (sel : NodeUse → List (String × Nat)) :
    t ∈ nodes.foldl (fun s n => (sel n).foldl (fun s p => insert p.2 s) s) s
      ↔ t ∈ s ∨ ∃ n ∈ nodes, ∃ p ∈ sel n, p.2 = t := by
  induction nodes generalizing s with
  | nil => simp
  | cons x xs ih =>
    simp only [List.foldl_cons, ih, mem_foldl_insert, List.mem_cons]
    constructor
    · rintro ((h | ⟨p, hp, hpt⟩) | ⟨n, hn, hrest⟩)
      · exact Or.inl h
      · exact Or.inr ⟨x, Or.inl rfl, p, hp, hpt⟩
      · exact Or.inr ⟨n, Or.inr hn, hrest⟩
    · rintro (h | ⟨n, hn | hn, hrest⟩)
      · exact Or.inl (Or.inl h)
      · exact Or.inl (Or.inr (by rw [hn] at hrest; exact hrest))
      · exact Or.inr ⟨n, hn, hrest⟩

/-- Membership after the nested node/tensor erasure fold. -/
theorem mem_nodes_foldl_erase (t : Nat) (nodes : List NodeUse) (s : Finset Nat)
    (sel : NodeUse → List (String × Nat)) :
    t ∈ nodes.foldl (fun s n => (sel n).foldl (fun s p => s.erase p.2) s) s
      ↔ t ∈ s ∧ ∀ n ∈ nodes, ∀ p ∈ sel n, p.2 ≠ t := by
  induction nodes generalizing s with
  | nil => simp
  | cons x xs ih =>
    simp only [List.foldl_cons, ih, mem_foldl_erase, List.mem_cons]
    constructor
    · rintro ⟨⟨hs, hx⟩, hall⟩
      refine ⟨hs, fun n hn => ?_⟩
      rcases hn with hn | hn
      · rw [hn]; exact hx
      · exact hall n hn
    · rintro ⟨hs, hall⟩
      exact ⟨⟨hs, hall x (Or.inl rfl)⟩, fun n hn => hall n (Or.inr hn)⟩

/-- The two-node chain A→x→B of the claim: A consumes tensor 10 and produces
tensor 11, B consumes tensor 11 and produces tensor 12. -/
def chainAB : GraphModel :=
  { nodes := [⟨[("x", 10)], [("y", 11)]⟩, ⟨[("x", 11)], [("y", 12)]⟩] }

/-- C7: a tensor is in `inputTensors()` exactly when some node consumes it and
no node produces it, and in `outputTensors()` exactly when some node
produces it and no node consumes it; for the two-node chain A→x→B the
intermediate tensor appears in neither set, the sets being A's unconsumed
input and B's unconsumed output respectively. -/
theorem graph_input_output_tensors (g : GraphModel) (t : Nat) :
    (t ∈ g.inputTensors ↔
      (∃ n ∈ g.nodes, ∃ p ∈ n.inputs, p.2 = t) ∧
      ¬∃ n ∈ g.nodes, ∃ p ∈ n.outputs, p.2 = t) ∧
    (t ∈ g.outputTensors ↔
      (∃ n ∈ g.nodes, ∃ p ∈ n.outputs, p.2 = t) ∧
      ¬∃ n ∈ g.nodes, ∃ p ∈ n.inputs, p.2 = t) ∧
    (chainAB.inputTensors = {10} ∧ chainAB.outputTensors = {12} ∧
      11 ∉ chainAB.inputTensors ∧ 11 ∉ chainAB.outputTensors) := by
  refine ⟨?_, ?_, by decide⟩
  · rw [GraphModel.inputTensors,
      mem_nodes_foldl_erase t g.nodes _ (fun n => n.outputs),
      mem_nodes_foldl_insert t g.nodes ∅ (fun n => n.inputs)]
    simp only [Finset.not_mem_empty, false_or]
    constructor
    · rintro ⟨hin, hout⟩
      exact ⟨hin, fun ⟨n, hn, p, hp, hpt⟩ => hout n hn p hp hpt⟩
    · rintro ⟨hin, hout⟩
      exact ⟨hin, fun n hn p hp hpt => hout ⟨n, hn, p, hp, hpt⟩⟩
  · rw [GraphModel.outputTensors,
      mem_nodes_foldl_erase t g.nodes _ (fun n => n.inputs),
      mem_nodes_foldl_insert t g.nodes ∅ (fun n => n.outputs)]
    simp only [Finset.not_mem_empty, false_or]
    constructor
    · rintro ⟨hout, hin⟩
      exact ⟨hout, fun ⟨n, hn, p, hp, hpt⟩ => hin n hn p hp hpt⟩
    · rintro ⟨hout, hin⟩
      exact ⟨hout, fun n hn p hp hpt => hin ⟨n, hn, p, hp, hpt⟩⟩

/-- The parts of a `Node` (saga.h) that output-shape inference reads: the
named input tensors and the attribute bag. -/
structure NodeModel where
  inputs : List (String × Tensor)
  attributes : Attributes

/-- Model of `Tensors::get(n)` (saga.h): the registered tensor, or null when absent. -/
def NodeModel.input (n : NodeModel) (nm : String) : Option Tensor :=
  n.inputs.lookup nm

/-- Model of `makeConvOutputTensor` (node.cpp): reads stride/pad/dilation attributes
(defaults 1), requires inputs `w` and `x` (missing input yields no
tensor), and builds an output tensor of `x`'s data type with dims
`{1, features, outputdim_h, outputdim_w}`.  Out-of-range `dims_[i]`
accesses (undefined in C++) are modelled with default 0; the verified
statements only instantiate rank-4 inputs.  `Int.tdiv` is C++ `int`
division (truncation toward zero). -/
def makeConvOutputTensor (name : String) (n : NodeModel) : Option TensorBase :=
  let stride := n.attributes.getInt "stride" 1
  let pad := n.attributes.getInt "pad" 1
  let dilation := n.attributes.getInt "dilation" 1
  match n.input "w" with
  | none => none
  | some w =>
    match n.input "x" with
    | none => none
    | some x =>
      let features := w.dims.getD 0 0
      let filterdim_h := w.dims.getD 2 0
      let filterdim_w := w.dims.getD 3 0
      let inputdim_h := x.dims.getD 2 0
      let inputdim_w := x.dims.getD 3 0
      let outputdim_w :=
        1 + Int.tdiv (inputdim_w + 2 * pad - ((filterdim_w - 1) * dilation + 1)) stride
      let outputdim_h :=
        1 + Int.tdiv (inputdim_h + 2 * pad - ((filterdim_h - 1) * dilation + 1)) stride
      some ⟨some name, x.data_type, [1, features, outputdim_h, outputdim_w]⟩

/-- A convolution node with batch-2 input, used to refute batch passthrough:
input `x` of shape [2,3,28,28], filter `w` of shape [8,3,5,5], stride 1,
pad 0, dilation 1. -/
def convBatch2Node : NodeModel :=
  { inputs := [("x", .base ⟨some "x", .FLOAT, [2, 3, 28, 28]⟩),
               ("w", .base ⟨some "w", .FLOAT, [8, 3, 5, 5]⟩)]
    attributes := [("stride", .aint 1), ("pad", .aint 0), ("dilation", .aint 1)] }

/-- Counterexample to C1 as stated: for input [2,3,28,28] and filter
[8,3,5,5] with stride 1, pad 0, dilation 1, the claimed batch passthrough
would give output dims [2,8,24,24], but inference hardcodes the batch
dimension to 1 and produces [1,8,24,24]. -/
theorem conv_batch_not_passed_through :
    (makeConvOutputTensor "y" convBatch2Node).map TensorBase.dims
      = some [1, 8, 24, 24] ∧
    (makeConvOutputTensor "y" convBatch2Node).map TensorBase.dims
      ≠ some [2, 8, 24, 24] := by
  constructor <;> decide

/-- C1 (amended): for a convolution node with rank-4 inputs `x` = [n,c,h,w]
and filter `w` = [f,c',kh,kw] and integer attributes stride (positive),
pad and dilation, inference produces a tensor of `x`'s data type with
shape [1, f, 1+⌊(h+2·pad−((kh−1)·dilation+1))/stride⌋,
1+⌊(w+2·pad−((kw−1)·dilation+1))/stride⌋]: the spatial floor formula of
the claim applied to height and width and the channel count from the
filter's leading dimension, but with the batch dimension fixed at 1
rather than passed through from the input. -/
theorem conv_output_shape (nd : NodeModel) (name : String) (x w : Tensor)
    (xn xc xh xw f wc kh kw s p d : Int)
    (hx : nd.input "x" = some x) (hw : nd.input "w" = some w)
    (hxd : x.dims = [xn, xc, xh, xw]) (hwd : w.dims = [f, wc, kh, kw])
    (hs : nd.attributes.getInt "stride" 1 = s)
    (hp : nd.attributes.getInt "pad" 1 = p)
    (hd : nd.attributes.getInt "dilation" 1 = d)
    (hspos : 0 < s)
    (hh : 0 ≤ xh + 2 * p - ((kh - 1) * d + 1))
    (hww : 0 ≤ xw + 2 * p - ((kw - 1) * d + 1)) :
    makeConvOutputTensor name nd = some ⟨some name, x.data_type,
      [1, f, 1 + Int.fdiv (xh + 2 * p - ((kh - 1) * d + 1)) s,
             1 + Int.fdiv (xw + 2 * p - ((kw - 1) * d + 1)) s]⟩ := by
  rw [Int.fdiv_eq_tdiv hh (le_of_lt hspos), Int.fdiv_eq_tdiv hww (le_of_lt hspos)]
  simp [makeConvOutputTensor, hx, hw, hxd, hwd, hs, hp, hd]

/-- The convolution example of the claim: input [1,3,28,28], filter
[8,3,5,5], stride 1, pad 0, dilation 1. -/
def convExampleNode : NodeModel :=
  { inputs := [("x", .base ⟨some "x", .FLOAT, [1, 3, 28, 28]⟩),
               ("w", .base ⟨some "w", .FLOAT, [8, 3, 5, 5]⟩)]
    attributes := [("stride", .aint 1), ("pad", .aint 0), ("dilation", .aint 1)] }

/-- Witness for C1 (amended) at the claim's example: input [1,3,28,28],
filter [8,3,5,5], stride 1, pad 0 gives output [1,8,24,24]. -/
theorem conv_output_shape_witness :
    makeConvOutputTensor "y" convExampleNode
      = some ⟨some "y", .FLOAT, [1, 8, 24, 24]⟩ := by
  have h := conv_output_shape convExampleNode "y"
    (.base ⟨some "x", .FLOAT, [1, 3, 28, 28]⟩)
    (.base ⟨some "w", .FLOAT, [8, 3, 5, 5]⟩)
    1 3 28 28 8 3 5 5 1 0 1
    (by decide) (by decide) (by decide) (by decide)
    (by decide) (by decide) (by decide) (by decide) (by decide) (by decide)
  rw [h]
  decide

/-- Sequential element reads `ta->get({i})` for `i = start, start+1, ...`
through an access view, threading the view state (a generator view
advances its stream). -/
def readSeq (ta : AccessView) (σ : Store) (start : Nat) : Nat → List Int
  | 0 => []
  | k + 1 =>
    let g := ta.get σ [(start : Int)]
    g.1 :: readSeq g.2 σ (start + 1) k

/-- Model of `makeReshapeOutputTensor` (node.cpp): requires inputs `x` and `shape`
(missing input yields no tensor), rejects a shape tensor that is not 1-D,
then reads `shape->dims_[0]` values element-by-element through the shape
tensor's access view — with no validation of the resulting element count —
and builds an output tensor of `x`'s data type with exactly those dims.
A shape tensor whose `access()` is null would be dereferenced (crash);
that branch is modelled as `none` and never relied upon. -/
def makeReshapeOutputTensor (σ : Store) (name : String) (n : NodeModel) :
    Option TensorBase :=
  match n.input "x" with
  | none => none
  | some x =>
    match n.input "shape" with
    | none => none
    | some shape =>
      if shape.dims.length ≠ 1 then none
      else
        match shape.access with
        | none => none
        | some ta =>
          some ⟨some name, x.data_type, readSeq ta σ 0 (shape.dims.getD 0 0).toNat⟩

/-- Reading through a CPU access view is stateless: the sequential reads are
exactly the element values at coordinates `{start}, {start+1}, ...`. -/
theorem readSeq_cpu (t : CPUTensor) (σ : Store) (start k : Nat) :
    readSeq (.cpu t) σ start k
      = (List.range k).map (fun i => t.getAt σ [((start + i : Nat) : Int)]) := by
  induction k generalizing start with
  | zero => simp [readSeq]
  | succ k ih =>
    rw [List.range_succ_eq_map]
    simp only [readSeq, AccessView.get, ih (start + 1), List.map_cons, List.map_map,
      List.cons.injEq]
    constructor
    · norm_num
    · apply List.map_congr_left
      intro i _
      simp only [Function.comp_apply]
      have h : start + 1 + i = start + i.succ := by omega
      rw [h]

/-- Sequential CPU reads starting at index 0 are the element values at
coordinates `{0}, {1}, ...`. -/
theorem readSeq_cpu_zero (t : CPUTensor) (σ : Store) (k : Nat) :
    readSeq (.cpu t) σ 0 k
      = (List.range k).map (fun (i : Nat) => t.getAt σ [(i : Int)]) := by
  rw [readSeq_cpu]
  apply List.map_congr_left
  intro i _
  norm_num

/-- C8: for a Reshape node whose input `x` is present and whose input
`shape` is a materialized 1-D tensor of length r, inference produces an
output tensor of `x`'s data type whose dims are exactly the r values read
element-by-element from the shape tensor in order — with no validation
that their product matches `x`'s element count; and when `x` or `shape`
is missing, or the shape tensor is not 1-D, no output tensor is
produced. -/
theorem reshape_output_shape (σ : Store) (name : String) (nd : NodeModel)
    (x : Tensor) (st : CPUTensor) (r : Int)
    (hx : nd.input "x" = some x)
    (hshape : nd.input "shape" = some (.cpu st))
    (hdims : st.dims = [r]) :
    (makeReshapeOutputTensor σ name nd
      = some ⟨some name, x.data_type,
          (List.range r.toNat).map (fun (i : Nat) => st.getAt σ [(i : Int)])⟩) ∧
    (∀ (nd' : NodeModel), nd'.input "x" = none →
      makeReshapeOutputTensor σ name nd' = none) ∧
    (∀ (nd' : NodeModel) (x' : Tensor), nd'.input "x" = some x' →
      nd'.input "shape" = none → makeReshapeOutputTensor σ name nd' = none) ∧
    (∀ (nd' : NodeModel) (x' shape' : Tensor), nd'.input "x" = some x' →
      nd'.input "shape" = some shape' → shape'.dims.length ≠ 1 →
      makeReshapeOutputTensor σ name nd' = none) := by
  refine ⟨?_, ?_, ?_, ?_⟩
  · rw [makeReshapeOutputTensor, hx, hshape]
    simp only [Tensor.dims, hdims, List.length_cons, List.length_nil, List.getD,
      Tensor.access, List.getElem?_cons_zero, List.get?_cons_zero, Option.getD_some]
    rw [if_neg (by decide), readSeq_cpu_zero]
  · intro nd' h
    rw [makeReshapeOutputTensor, h]
  · intro nd' x' hx' h
    rw [makeReshapeOutputTensor, hx', h]
  · intro nd' x' shape' hx' hs' hr
    simp [makeReshapeOutputTensor, hx', hs', hr]

/-- Little-endian mixed-radix decomposition of a flat index over a radix
(dimension) list, least significant axis first. -/
def unflattenLE : List Int → Int → List Int
  | [], _ => []
  | d :: ds, m => (m % d) :: unflattenLE ds (m / d)

/-- Little-endian mixed-radix recomposition of a coordinate into a flat
index. -/
def flattenLE : List Int → List Int → Int
  | d :: ds, c :: cs => c + d * flattenLE ds cs
  | _, _ => 0

/-- Recursive in-bounds predicate on radix/coordinate lists. -/
def inBoundsLE : List Int → List Int → Prop
  | [], [] => True
  | d :: ds, c :: cs => (0 ≤ c ∧ c < d) ∧ inBoundsLE ds cs
  | _, _ => False

/-- The coordinate reached after `m` odometer steps from all zeros: the
big-endian view of the little-endian decomposition. -/
def unflattenI (dims : Dims) (m : Int) : Dims :=
  (unflattenLE dims.reverse m).reverse

theorem unflattenLE_length (ds : List Int) (m : Int) :
    (unflattenLE ds m).length = ds.length := by
  induction ds generalizing m with
  | nil => rfl
  | cons d ds ih => simp [unflattenLE, ih]

theorem unflattenLE_zero (ds : List Int) :
    unflattenLE ds 0 = List.replicate ds.length 0 := by
  induction ds with
  | nil => rfl
  | cons d ds ih => simp [unflattenLE, ih, List.replicate_succ]

theorem flattenLE_unflattenLE (ds : List Int) (hpos : ∀ d ∈ ds, 0 < d)
    (m : Int) (h0 : 0 ≤ m) (hm : m < ds.prod) :
    flattenLE ds (unflattenLE ds m) = m := by
  induction ds generalizing m with
  | nil =>
    simp only [List.prod_nil] at hm
    simp only [unflattenLE, flattenLE]
    omega
  | cons d ds ih =>
    have hd : 0 < d := hpos d (List.mem_cons_self d ds)
    have hrest : ∀ x ∈ ds, 0 < x := fun x hx => hpos x (List.mem_cons_of_mem d hx)
    simp only [unflattenLE, flattenLE]
    rw [ih hrest (m / d) (Int.ediv_nonneg h0 hd.le) ?_]
    · exact Int.emod_add_ediv m d
    · rw [Int.ediv_lt_iff_lt_mul hd]
      rw [List.prod_cons] at hm
      linarith [hm, mul_comm d ds.prod]

theorem unflattenLE_flattenLE (ds cs : List Int) (h : inBoundsLE ds cs) :
    unflattenLE ds (flattenLE ds cs) = cs := by
  induction ds generalizing cs with
  | nil =>
    cases cs with
    | nil => rfl
    | cons c cs => exact absurd h (by simp [inBoundsLE])
  | cons d ds ih =>
    cases cs with
    | nil => exact absurd h (by simp [inBoundsLE])
    | cons c cs =>
      obtain ⟨⟨hc0, hcd⟩, hrest⟩ := h
      have hd : d ≠ 0 := by omega
      simp only [unflattenLE, flattenLE]
      rw [Int.add_mul_emod_self_left, Int.emod_eq_of_lt hc0 hcd,
        Int.add_mul_ediv_left c _ hd, Int.ediv_eq_zero_of_lt hc0 hcd, zero_add,
        ih cs hrest]

theorem odoIncLE_unflattenLE (ds : List Int) (hpos : ∀ d ∈ ds, 0 < d)
    (m : Int) (h0 : 0 ≤ m) (hm : m + 1 ≤ ds.prod) :
    odoIncLE ds (unflattenLE ds m) = unflattenLE ds (m + 1) := by
  induction ds generalizing m with
  | nil =>
    simp only [List.prod_nil] at hm
    have : m = 0 := by omega
    simp [unflattenLE, odoIncLE]
  | cons d ds ih =>
    have hd : 0 < d := hpos d (List.mem_cons_self d ds)
    have hrest : ∀ x ∈ ds, 0 < x := fun x hx => hpos x (List.mem_cons_of_mem d hx)
    have hdecomp := Int.emod_add_ediv m d
    have hmodlt : m % d < d := Int.emod_lt_of_pos m hd
    have hmod0 : 0 ≤ m % d := Int.emod_nonneg m (by omega)
    rw [List.prod_cons] at hm
    simp only [unflattenLE, odoIncLE]
    by_cases hc : m % d + 1 = d
    · rw [if_pos hc]
      have hm1 : m + 1 = d * (m / d + 1) := by ring_nf; omega
      have hdiv : (m + 1) / d = m / d + 1 := by
        rw [hm1, Int.mul_ediv_cancel_left _ (by omega : d ≠ 0)]
      have hmod : (m + 1) % d = 0 := by
        rw [hm1, Int.mul_emod_right]
      rw [hmod, hdiv]
      have hbound : m / d + 1 ≤ ds.prod := by
        have hprodpos : 0 < ds.prod := List.prod_pos hrest
        nlinarith [hm1, hm]
      rw [ih hrest (m / d) (Int.ediv_nonneg h0 hd.le) hbound]
    · rw [if_neg hc]
      have hlt : m % d + 1 < d := by omega
      have hm1 : m + 1 = (m % d + 1) + d * (m / d) := by omega
      have hmod : (m + 1) % d = m % d + 1 := by
        rw [hm1, Int.add_mul_emod_self_left, Int.emod_eq_of_lt (by omega) hlt]
      have hdiv : (m + 1) / d = m / d := by
        rw [hm1, Int.add_mul_ediv_left _ _ (by omega : d ≠ 0),
          Int.ediv_eq_zero_of_lt (by omega) hlt, zero_add]
      rw [hmod, hdiv]

theorem flattenLE_bounds (ds cs : List Int) (h : inBoundsLE ds cs) :
    0 ≤ flattenLE ds cs ∧ flattenLE ds cs < ds.prod := by
  induction ds generalizing cs with
  | nil =>
    cases cs with
    | nil => simp [flattenLE]
    | cons c cs => exact absurd h (by simp [inBoundsLE])
  | cons d ds ih =>
    cases cs with
    | nil => exact absurd h (by simp [inBoundsLE])
    | cons c cs =>
      obtain ⟨⟨hc0, hcd⟩, hrest⟩ := h
      obtain ⟨hF0, hFp⟩ := ih cs hrest
      simp only [flattenLE, List.prod_cons]
      constructor
      · nlinarith
      · nlinarith

theorem flattenLE_append (as xs : List Int) (hlen : xs.length = as.length)
    (d c : Int) :
    flattenLE (as ++ [d]) (xs ++ [c]) = flattenLE as xs + c * as.prod := by
  induction as generalizing xs with
  | nil =>
    cases xs with
    | nil => simp [flattenLE]
    | cons x xs => simp at hlen
  | cons a as ih =>
    cases xs with
    | nil => simp at hlen
    | cons x xs =>
      calc flattenLE ((a :: as) ++ [d]) ((x :: xs) ++ [c])
          = x + a * flattenLE (as ++ [d]) (xs ++ [c]) := rfl
        _ = x + a * (flattenLE as xs + c * as.prod) := by
            rw [ih xs (by simpa using hlen)]
        _ = flattenLE (a :: as) (x :: xs) + c * (a :: as).prod := by
            simp only [flattenLE, List.prod_cons]
            ring

theorem stridesAux_snd (dims : Dims) : (stridesAux dims).2 = dims.prod := by
  induction dims with
  | nil => rfl
  | cons d ds ih => simp [stridesAux, ih, List.prod_cons, mul_comm]

theorem computeCPUStrides_cons (d : Int) (ds : Dims) :
    computeCPUStrides (d :: ds) = ds.prod :: computeCPUStrides ds := by
  simp [computeCPUStrides, stridesAux, stridesAux_snd]

/-- The flat offset of a coordinate under canonical strides is its big-endian
mixed-radix value, i.e. the little-endian value of the reversed lists. -/
theorem dot_computeCPUStrides (dims cs : Dims) (hlen : cs.length = dims.length) :
    (List.zipWith (· * ·) cs (computeCPUStrides dims)).sum
      = flattenLE dims.reverse cs.reverse := by
  induction dims generalizing cs with
  | nil =>
    cases cs with
    | nil => rfl
    | cons c cs => simp at hlen
  | cons d ds ih =>
    cases cs with
    | nil => simp at hlen
    | cons c cs =>
      rw [computeCPUStrides_cons]
      simp only [List.zipWith_cons_cons, List.sum_cons, List.reverse_cons]
      rw [ih cs (by simpa using hlen),
        flattenLE_append ds.reverse cs.reverse
          (by simp; simpa using hlen) d c]
      rw [List.prod_reverse]
      ring

theorem inBoundsLE_append (as xs : List Int) (h : inBoundsLE as xs)
    (d c : Int) (hc : 0 ≤ c ∧ c < d) :
    inBoundsLE (as ++ [d]) (xs ++ [c]) := by
  induction as generalizing xs with
  | nil =>
    cases xs with
    | nil => exact ⟨hc, trivial⟩
    | cons x xs => exact absurd h (by simp [inBoundsLE])
  | cons a as ih =>
    cases xs with
    | nil => exact absurd h (by simp [inBoundsLE])
    | cons x xs =>
      obtain ⟨hx, hrest⟩ := h
      exact ⟨hx, ih xs hrest⟩

theorem inBounds_iff_inBoundsLE (dims cs : Dims) :
    inBounds dims cs ↔ inBoundsLE dims cs := by
  induction dims generalizing cs with
  | nil =>
    cases cs with
    | nil => simp [inBounds, inBoundsLE]
    | cons c cs => simp [inBounds, inBoundsLE]
  | cons d ds ih =>
    cases cs with
    | nil => simp [inBounds, inBoundsLE]
    | cons c cs =>
      simp only [inBounds, inBoundsLE, List.length_cons, List.zip_cons_cons,
        List.mem_cons, add_left_inj]
      rw [← ih cs]
      simp only [inBounds]
      constructor
      · rintro ⟨hlen, hall⟩
        exact ⟨hall (c, d) (Or.inl rfl), hlen,
          fun p hp => hall p (Or.inr hp)⟩
      · rintro ⟨hcd, hlen, hall⟩
        refine ⟨hlen, fun p hp => ?_⟩
        rcases hp with hp | hp
        · rw [hp]; exact hcd
        · exact hall p hp

theorem inBoundsLE_reverse (ds cs : List Int) (h : inBoundsLE ds cs) :
    inBoundsLE ds.reverse cs.reverse := by
  induction ds generalizing cs with
  | nil =>
    cases cs with
    | nil => exact trivial
    | cons c cs => exact absurd h (by simp [inBoundsLE])
  | cons d ds ih =>
    cases cs with
    | nil => exact absurd h (by simp [inBoundsLE])
    | cons c cs =>
      obtain ⟨hc, hrest⟩ := h
      simp only [List.reverse_cons]
      exact inBoundsLE_append ds.reverse cs.reverse (ih cs hrest) d c hc

theorem unflattenI_zero (dims : Dims) :
    unflattenI dims 0 = List.replicate dims.length 0 := by
  rw [unflattenI, unflattenLE_zero, List.length_reverse, List.reverse_replicate]

theorem unflattenI_length (dims : Dims) (m : Int) :
    (unflattenI dims m).length = dims.length := by
  rw [unflattenI, List.length_reverse, unflattenLE_length, List.length_reverse]

theorem odoInc_unflattenI (dims : Dims) (hpos : ∀ d ∈ dims, 0 < d) (m : Int)
    (h0 : 0 ≤ m) (hm : m + 1 ≤ dims.prod) :
    odoInc dims (unflattenI dims m) = unflattenI dims (m + 1) := by
  rw [odoInc, unflattenI, List.reverse_reverse,
    odoIncLE_unflattenLE dims.reverse
      (fun d hd => hpos d (List.mem_reverse.mp hd)) m h0
      (by rwa [List.prod_reverse]),
    unflattenI]

theorem offsetForElement_unflattenI (dims : Dims) (hpos : ∀ d ∈ dims, 0 < d)
    (m : Int) (h0 : 0 ≤ m) (hm : m < dims.prod) :
    offsetForElement 0 (computeCPUStrides dims) (unflattenI dims m) = m := by
  rw [offsetForElement, zero_add,
    dot_computeCPUStrides dims _ (unflattenI_length dims m),
    unflattenI, List.reverse_reverse,
    flattenLE_unflattenLE dims.reverse
      (fun d hd => hpos d (List.mem_reverse.mp hd)) m h0
      (by rwa [List.prod_reverse])]

theorem offsetForElement_bounds (dims c : Dims) (h : inBounds dims c) :
    0 ≤ offsetForElement 0 (computeCPUStrides dims) c ∧
    offsetForElement 0 (computeCPUStrides dims) c < dims.prod := by
  rw [offsetForElement, zero_add, dot_computeCPUStrides dims c h.1]
  have hb := flattenLE_bounds dims.reverse c.reverse
    (inBoundsLE_reverse dims c ((inBounds_iff_inBoundsLE dims c).mp h))
  rwa [List.prod_reverse] at hb

theorem unflattenI_offsetForElement (dims c : Dims) (h : inBounds dims c) :
    unflattenI dims (offsetForElement 0 (computeCPUStrides dims) c) = c := by
  rw [offsetForElement, zero_add, dot_computeCPUStrides dims c h.1, unflattenI,
    unflattenLE_flattenLE dims.reverse c.reverse
      (inBoundsLE_reverse dims c ((inBounds_iff_inBoundsLE dims c).mp h)),
    List.reverse_reverse]

theorem getAt_storeWrite_other (t : CPUTensor) (σ : Store) (id : Nat)
    (i v : Int) (hne : id ≠ t.storage) (e : Dims) :
    t.getAt (storeWrite σ id i v) e = t.getAt σ e := by
  simp [CPUTensor.getAt, storeWrite, Ne.symm hne]

/-- Characterization of the `Tensor::copyFrom` loop between two CPU tensors
over the same dimension list, the destination densely packed (canonical
strides, offset 0) in its own storage: after running `k` steps starting at
odometer position `n`, flat cells `n ≤ m < n+k` of the destination storage
hold the source elements at the corresponding odometer coordinates, and
every other cell of the world is untouched. -/
theorem copyLoop_cpu_spec (dims : Dims) (hpos : ∀ d ∈ dims, 0 < d)
    (dst src : CPUTensor)
    (hds : dst.strides = computeCPUStrides dims) (hoff : dst.offset = 0)
    (hsto : src.storage ≠ dst.storage) :
    ∀ (k n : Nat) (σ : Store), ((n : Int) + (k : Int) ≤ dims.prod) →
      (∀ (m : Nat), n ≤ m → m < n + k →
        copyLoop k (.cpu dst) (.cpu src) σ (unflattenI dims (n : Int))
            (unflattenI dims (n : Int)) dims dims dst.storage (m : Int)
          = src.getAt σ (unflattenI dims (m : Int))) ∧
      (∀ (id : Nat) (i : Int),
        (id = dst.storage → ∀ (m : Nat), n ≤ m → m < n + k → i ≠ (m : Int)) →
        copyLoop k (.cpu dst) (.cpu src) σ (unflattenI dims (n : Int))
            (unflattenI dims (n : Int)) dims dims id i = σ id i) := by
  intro k
  induction k with
  | zero =>
    intro n σ hb
    exact ⟨fun m h1 h2 => absurd h2 (by omega), fun id i _ => rfl⟩
  | succ k ih =>
    intro n σ hb
    have hprod : ((n : Int) + 1) ≤ dims.prod := by push_cast at hb ⊢; linarith
    have hnn : (0 : Int) ≤ (n : Int) := Int.natCast_nonneg n
    have hstep : odoInc dims (unflattenI dims (n : Int))
        = unflattenI dims (((n + 1 : Nat) : Int)) := by
      push_cast
      exact odoInc_unflattenI dims hpos (n : Int) hnn hprod
    have hflat : offsetForElement dst.offset dst.strides (unflattenI dims (n : Int))
        = (n : Int) := by
      rw [hoff, hds]
      exact offsetForElement_unflattenI dims hpos (n : Int) hnn (by linarith)
    have hunfold : ∀ (σ₀ : Store),
        copyLoop (k + 1) (.cpu dst) (.cpu src) σ₀ (unflattenI dims (n : Int))
          (unflattenI dims (n : Int)) dims dims
        = copyLoop k (.cpu dst) (.cpu src)
            (dst.setAt σ₀ (unflattenI dims (n : Int))
              (src.getAt σ₀ (unflattenI dims (n : Int))))
            (odoInc dims (unflattenI dims (n : Int)))
            (odoInc dims (unflattenI dims (n : Int))) dims dims :=
      fun σ₀ => rfl
    obtain ⟨ihA, ihB⟩ := ih (n + 1)
      (dst.setAt σ (unflattenI dims (n : Int))
        (src.getAt σ (unflattenI dims (n : Int))))
      (by push_cast at hb ⊢; linarith)
    constructor
    · intro m h1 h2
      rw [hunfold σ, hstep]
      by_cases hmn : m = n
      · subst hmn
        have hcond : dst.storage = dst.storage →
            ∀ (m' : Nat), m + 1 ≤ m' → m' < m + 1 + k → (m : Int) ≠ (m' : Int) := by
          intro _ m' hm1 hm2
          have : m ≠ m' := by omega
          exact_mod_cast fun hc => this (by exact_mod_cast hc)
        rw [ihB dst.storage (m : Int) hcond]
        simp [CPUTensor.setAt, storeWrite, hflat]
      · have hm1' : n + 1 ≤ m := by omega
        rw [ihA m hm1' (by omega)]
        rw [CPUTensor.setAt, getAt_storeWrite_other src _ dst.storage _ _
          (Ne.symm hsto)]
    · intro id i hcond
      rw [hunfold σ, hstep]
      rw [ihB id i (fun hid m' hm1 hm2 => hcond hid m' (by omega) (by omega))]
      by_cases hid : id = dst.storage
      · have hin : i ≠ (n : Int) := hcond hid n (le_refl n) (by omega)
        simp [CPUTensor.setAt, storeWrite, hflat, hid, hin]
      · simp [CPUTensor.setAt, storeWrite, hid]

/-- On-disk type tag (`TensorDiskType`, tensor.cpp): only float32 (tag 0) and
float16 (tag 1) are serializable. -/
def typeTagOf : DataType → Option Nat
  | .FLOAT => some 0
  | .HALF => some 1
  | _ => none

/-- The inverse mapping used by `Tensor::load`. -/
def dataTypeOfTag : Nat → Option DataType
  | 0 => some .FLOAT
  | 1 => some .HALF
  | _ => none

/-- The 8 magic bytes `"sagaT001"`. -/
def sagaMagic : List Nat :=
  [0x73, 0x61, 0x67, 0x61, 0x54, 0x30, 0x30, 0x31]

/-- The on-disk tensor layout (`TensorDiskHeader` plus body, tensor.cpp):
8 magic bytes, a type tag, the rank, `rank` uint32 dimension values, and
the densely packed element payload in odometer order. -/
structure TensorFile where
  magic : List Nat
  typeTag : Nat
  rank : Nat
  dims : List Nat
  payload : List Int
deriving DecidableEq

/-- Model of `Tensor::save` (tensor.cpp): unsupported data types fail; otherwise the
header records the magic, the type tag, the rank and the dimensions
truncated to uint32 (`ondiskdims[i] = dims_[i]`); the element body is
produced by `copyFrom` into a freshly allocated (`calloc`-zeroed) densely
packed canonical-stride CPU tensor, of which `strides_[0] * dims_[0]`
elements are written out in flat order. -/
def Tensor.save (σ : Store) (t : CPUTensor) : Option TensorFile :=
  match typeTagOf t.data_type with
  | none => none
  | some tag =>
    let copy : CPUTensor :=
      ⟨none, t.data_type, t.dims, computeCPUStrides t.dims, t.storage + 1, 0⟩
    let σ0 : Store := fun id i => if id = copy.storage then 0 else σ id i
    match Tensor.copyFrom (.cpu copy) (.cpu t) σ0 with
    | none => none
    | some σ1 =>
      let count := ((copy.strides.headD 0) * (copy.dims.headD 0)).toNat
      some ⟨sagaMagic, tag, t.dims.length,
        t.dims.map (fun d => (d % (2 ^ 32 : Int)).toNat),
        (List.range count).map (fun (i : Nat) => σ1 copy.storage (i : Int))⟩

/-- The result of `Tensor::load`: a CPU tensor with canonical strides and
offset 0 whose storage is the mapped file body (zero-copy), modelled by
carrying the payload directly. -/
structure LoadedTensor where
  name : Option String
  data_type : DataType
  dims : Dims
  strides : Dims
  payload : List Int
deriving DecidableEq

/-- Model of `Tensor::load` (tensor.cpp): reject a wrong magic, an unsupported type
tag, a rank above 8, and a file too short to hold `rank` dimension values;
otherwise read `rank` uint32 dimensions (widened to int64), compute
canonical strides, and wrap the mapped body at offset 0. -/
def Tensor.load (f : TensorFile) (name : Option String) : Option LoadedTensor :=
  if f.magic ≠ sagaMagic then none
  else
    match dataTypeOfTag f.typeTag with
    | none => none
    | some dt =>
      if 8 < f.rank then none
      else if f.dims.length < f.rank then none
      else
        let dims : Dims := (f.dims.take f.rank).map (fun (n : Nat) => (n : Int))
        some ⟨name, dt, dims, computeCPUStrides dims, f.payload⟩

/-- Element read from a loaded tensor: the payload at the flat offset of the
coordinate under the tensor's strides. -/
def LoadedTensor.get (L : LoadedTensor) (c : Dims) : Int :=
  L.payload.getD (offsetForElement 0 L.strides c).toNat 0

theorem elementsFromDims_eq_prod (dims : Dims) :
    elementsFromDims dims = dims.prod := by
  rw [elementsFromDims, ← List.prod_eq_foldl]

theorem getD_range_map (N : Nat) (f : Nat → Int) (j : Nat) (h : j < N) :
    ((List.range N).map f).getD j 0 = f j := by
  rw [List.getD_eq_getElem?_getD, List.getElem?_map, List.getElem?_range h]
  rfl

/-- C4: saving a materialized float32 tensor (well-formed per the data model:
nonempty rank at most 8, positive dimensions representable in the uint32
on-disk dimension field) and loading the file back yields a tensor with
the same data type, the same dimension list, and identical element values
at every in-bounds coordinate (the float32 payload is written and mapped
back bit-for-bit; values are modelled in the lossless interchange
domain). -/
theorem save_load_roundtrip (σ : Store) (t : CPUTensor) (name : Option String)
    (hdt : t.data_type = .FLOAT)
    (hne : t.dims ≠ [])
    (hrank : t.dims.length ≤ 8)
    (hdims : ∀ d ∈ t.dims, 0 < d ∧ d < 2 ^ 32) :
    ∃ f L, Tensor.save σ t = some f ∧ Tensor.load f name = some L ∧
      L.data_type = t.data_type ∧ L.dims = t.dims ∧
      ∀ c, inBounds t.dims c → L.get c = t.getAt σ c := by
  obtain ⟨tn, tdt, tdims, tstr, tsto, toff⟩ := t
  subst hdt
  have hpos : ∀ d ∈ tdims, 0 < d := fun d hd => (hdims d hd).1
  have hP : 0 < tdims.prod := List.prod_pos hpos
  have hsne : tsto ≠ tsto + 1 := by omega
  set t' : CPUTensor := ⟨tn, .FLOAT, tdims, tstr, tsto, toff⟩ with ht'
  have hne' : tdims ≠ [] := hne
  have hrank' : tdims.length ≤ 8 := hrank
  have hdims' : ∀ d ∈ tdims, 0 < d ∧ d < 2 ^ 32 := hdims
  set copy : CPUTensor :=
    ⟨none, .FLOAT, tdims, computeCPUStrides tdims, tsto + 1, 0⟩ with hcopy
  set σ0 : Store := fun id i => if id = tsto + 1 then 0 else σ id i with hσ0
  set σ1 : Store := copyLoop tdims.prod.toNat (.cpu copy) (.cpu t') σ0
    (unflattenI tdims ((0 : Nat) : Int)) (unflattenI tdims ((0 : Nat) : Int))
    tdims tdims with hσ1
  have hcoord : List.replicate tdims.length (0 : Int)
      = unflattenI tdims ((0 : Nat) : Int) := by
    rw [Nat.cast_zero, unflattenI_zero]
  have hcf : Tensor.copyFrom (.cpu copy) (.cpu t') σ0 = some σ1 := by
    simp only [Tensor.copyFrom, Tensor.access, Tensor.elements, Tensor.dims,
      hcopy, ht', if_pos rfl, if_true]
    rw [hσ1, elementsFromDims_eq_prod, hcoord]
  have hspec := copyLoop_cpu_spec tdims hpos copy t' rfl rfl
    (by rw [hcopy, ht']; exact hsne) tdims.prod.toNat 0 σ0
    (by rw [Int.toNat_of_nonneg hP.le]; simp)
  have hcount : ((computeCPUStrides tdims).headD 0 * tdims.headD 0).toNat
      = tdims.prod.toNat := by
    obtain ⟨d, ds, hdd⟩ : ∃ d ds, tdims = d :: ds := by
      cases hdim : tdims with
      | nil => exact absurd hdim hne'
      | cons d ds => exact ⟨d, ds, rfl⟩
    rw [hdd, computeCPUStrides_cons]
    simp [List.prod_cons, mul_comm]
  have hsave : Tensor.save σ t'
      = some ⟨sagaMagic, 0, tdims.length,
          tdims.map (fun d => (d % (2 ^ 32 : Int)).toNat),
          (List.range tdims.prod.toNat).map
            (fun (i : Nat) => σ1 (tsto + 1) (i : Int))⟩ := by
    simp only [Tensor.save, ht', typeTagOf]
    dsimp only
    rw [← hcopy, ← hσ0, ← ht', hcf]
    dsimp only
    rw [hcount]
  have hdims_rt : ((tdims.map (fun d => (d % (2 ^ 32 : Int)).toNat)).take
      tdims.length).map (fun (n : Nat) => (n : Int)) = tdims := by
    rw [show tdims.length = (tdims.map (fun d => (d % (2 ^ 32 : Int)).toNat)).length
        from (List.length_map _ _).symm,
      List.take_length, List.map_map]
    have hid : ∀ d ∈ tdims, (((fun (n : Nat) => (n : Int)) ∘
        (fun d => (d % (2 ^ 32 : Int)).toNat)) d) = d := by
      intro d hd
      obtain ⟨hd0, hdlt⟩ := hdims' d hd
      simp only [Function.comp_apply]
      rw [Int.toNat_of_nonneg (Int.emod_nonneg d (by norm_num)),
        Int.emod_eq_of_lt hd0.le hdlt]
    rw [List.map_congr_left hid]
    exact List.map_id tdims
  have hload : Tensor.load
      ⟨sagaMagic, 0, tdims.length,
        tdims.map (fun d => (d % (2 ^ 32 : Int)).toNat),
        (List.range tdims.prod.toNat).map
          (fun (i : Nat) => σ1 (tsto + 1) (i : Int))⟩ name
      = some ⟨name, .FLOAT, tdims, computeCPUStrides tdims,
          (List.range tdims.prod.toNat).map
            (fun (i : Nat) => σ1 (tsto + 1) (i : Int))⟩ := by
    simp only [Tensor.load, dataTypeOfTag]
    rw [if_neg (by simp), if_neg (by omega : ¬8 < tdims.length),
      if_neg (by simp), hdims_rt]
  refine ⟨_, _, hsave, hload, rfl, rfl, ?_⟩
  intro c hc
  obtain ⟨hM0, hMlt⟩ := offsetForElement_bounds tdims c hc
  have hMn : (offsetForElement 0 (computeCPUStrides tdims) c).toNat
      < tdims.prod.toNat := by omega
  have hMcast : (((offsetForElement 0 (computeCPUStrides tdims) c).toNat : Nat) : Int)
      = offsetForElement 0 (computeCPUStrides tdims) c :=
    Int.toNat_of_nonneg hM0
  rw [LoadedTensor.get]
  dsimp only
  rw [getD_range_map _ _ _ hMn, hMcast]
  have ha := hspec.1 (offsetForElement 0 (computeCPUStrides tdims) c).toNat
    (Nat.zero_le _) (by omega)
  rw [show copy.storage = tsto + 1 from rfl, hMcast,
    unflattenI_offsetForElement tdims c hc] at ha
  rw [hσ1, ha, CPUTensor.getAt, hσ0]
  dsimp only
  rw [if_neg hsne]
  rfl

/-- Witness for C4: the concrete 2×3 float tensor round-trips through
save/load. -/
theorem save_load_roundtrip_witness :
    ∃ f L, Tensor.save (fun _ _ => 0) cpuT23 = some f ∧
      Tensor.load f (some "t") = some L ∧
      L.data_type = cpuT23.data_type ∧ L.dims = cpuT23.dims ∧
      ∀ c, inBounds cpuT23.dims c → L.get c = cpuT23.getAt (fun _ _ => 0) c :=
  save_load_roundtrip (fun _ _ => 0) cpuT23 (some "t") rfl (by decide) (by decide)
    (by decide)

/-- A one-element float storage world holding value 9 in storage 1 at flat
offset 0 (elsewhere 0); used as the shape tensor's contents below. -/
def shapeStore : Store :=
  fun id i => if id = 1 ∧ i = 0 then 9 else 0

/-- A Reshape node whose `x` has 4 elements but whose shape tensor holds the
single value 9 — the products disagree, exhibiting the absent validation. -/
def reshapeNode : NodeModel :=
  { inputs := [("x", .base ⟨some "x", .FLOAT, [2, 2]⟩),
               ("shape", .cpu ⟨some "shape", .INT64, [1], [1], 1, 0⟩)]
    attributes := [] }

/-- Witness for C8: the single dim read from the shape tensor is its stored
value 9, so the output dims are [9] even though 9 differs from `x`'s
element count 4 — no validation occurs. -/
theorem reshape_output_shape_witness :
    makeReshapeOutputTensor shapeStore "y" reshapeNode
      = some ⟨some "y", .FLOAT,
          (List.range (1 : Int).toNat).map
            (fun (i : Nat) => CPUTensor.getAt ⟨some "shape", .INT64, [1], [1], 1, 0⟩
              shapeStore [(i : Int)])⟩ ∧
    (List.range (1 : Int).toNat).map
        (fun (i : Nat) => CPUTensor.getAt ⟨some "shape", .INT64, [1], [1], 1, 0⟩
          shapeStore [(i : Int)]) = [9] ∧
    (9 : Int) ≠ elementsFromDims [2, 2] := by
  refine ⟨(reshape_output_shape shapeStore "y" reshapeNode
    (.base ⟨some "x", .FLOAT, [2, 2]⟩) ⟨some "shape", .INT64, [1], [1], 1, 0⟩ 1
    (by decide) (by decide) (by decide)).1, by decide, by decide⟩

end Saga
